import Mathlib

/-!
Shallow embedding of `server.py` (a small MCP demo server) and proofs of the
specification claims about its six tool handlers, its sample data store, and
its command-line bootstrap.

Conventions of the embedding:
* Python strings are `String` / `List Char`; Python `int` is `Int`; Python
  optional parameters defaulting to `None` are `Option _`.
* Python truthiness tests (`if status:`, `if user_id:`) are translated
  explicitly: a `none`, an empty string, and a zero integer are falsy.
* The `eval`-based calculator is modelled from the spec's prescribed
  constrained arithmetic parser (see `parseSum` below), since the generic
  Python evaluator is external-language functionality; arithmetic is exact
  rational arithmetic.
* The system clock is passed as an explicit `UTCTime` argument.
-/

namespace Server

/-- A user record of the sample store: `{"id": ..., "name": ..., "email": ...}`. -/
structure User where
  id : Int
  name : String
  email : String
deriving DecidableEq, Repr

/-- A task record of the sample store:
`{"id": ..., "title": ..., "status": ..., "user_id": ...}`. -/
structure Task where
  id : Int
  title : String
  status : String
  user_id : Int
deriving DecidableEq, Repr

/-- The whole sample store (`SAMPLE_DATA` in `server.py`). -/
structure Store where
  users : List User
  tasks : List Task
deriving DecidableEq, Repr

/-- `SAMPLE_DATA` from `server.py`, lines 16-27. -/
def SAMPLE_DATA : Store :=
  { users :=
      [ ⟨1, "Alice", "alice@example.com"⟩
      , ⟨2, "Bob", "bob@example.com"⟩
      , ⟨3, "Charlie", "charlie@example.com"⟩ ]
  , tasks :=
      [ ⟨1, "Complete project", "in_progress", 1⟩
      , ⟨2, "Review code", "pending", 2⟩
      , ⟨3, "Write documentation", "completed", 1⟩ ] }

/-- Python truthiness of an optional string (`if status:`):
`None` and `""` are falsy. -/
def pyTruthyStr : Option String → Bool
  | none => false
  | some s => s != ""

/-- Python truthiness of an optional integer (`if user_id:`):
`None` and `0` are falsy. -/
def pyTruthyInt : Option Int → Bool
  | none => false
  | some n => n != 0

/-- The filtering body of `get_tasks` (`server.py` lines 99-105): apply the
status filter when the `status` argument is truthy, then the user filter when
the `user_id` argument is truthy. -/
def filterTasks (tasks : List Task) (status : Option String) (user_id : Option Int) :
    List Task :=
  let t1 := if pyTruthyStr status then
      tasks.filter (fun t => t.status == status.getD "") else tasks
  if pyTruthyInt user_id then
      t1.filter (fun t => t.user_id == user_id.getD 0) else t1

/-- JSON string quoting used by the sample serializations (the static data
contains no characters needing escapes). -/
def jquote (s : String) : String := "\"" ++ s ++ "\""

/-- `json.dumps` of one user dict with `indent=2`, nested at list level. -/
def dumpUser (u : User) : String :=
  "\x7b\n    \"id\": " ++ toString u.id ++
  ",\n    \"name\": " ++ jquote u.name ++
  ",\n    \"email\": " ++ jquote u.email ++ "\n  \x7d"

/-- `json.dumps` of one task dict with `indent=2`, nested at list level. -/
def dumpTask (t : Task) : String :=
  "\x7b\n    \"id\": " ++ toString t.id ++
  ",\n    \"title\": " ++ jquote t.title ++
  ",\n    \"status\": " ++ jquote t.status ++
  ",\n    \"user_id\": " ++ toString t.user_id ++ "\n  \x7d"

/-- `json.dumps(l, indent=2)` for a list of user dicts. -/
def dumpUsers (l : List User) : String :=
  if l.isEmpty then "[]" else
  "[\n  " ++ String.intercalate ",\n  " (l.map dumpUser) ++ "\n]"

/-- `json.dumps(l, indent=2)` for a list of task dicts. -/
def dumpTasks (l : List Task) : String :=
  if l.isEmpty then "[]" else
  "[\n  " ++ String.intercalate ",\n  " (l.map dumpTask) ++ "\n]"

/-- Tool 3, `get_users` (`server.py` lines 76-83). -/
def get_users : String := dumpUsers SAMPLE_DATA.users

/-- The task list computed by `get_tasks` before serialization
(`server.py` lines 99-105). -/
def get_tasksList (status : Option String) (user_id : Option Int) : List Task :=
  filterTasks SAMPLE_DATA.tasks status user_id

/-- Tool 4, `get_tasks` (`server.py` lines 88-107): filter, then
`json.dumps(tasks, indent=2)`. -/
def get_tasks (status : Option String) (user_id : Option Int) : String :=
  dumpTasks (get_tasksList status user_id)

/-- Python `str.upper()` (ASCII case mapping in this model). -/
def pyUpper (s : String) : String := s.map Char.toUpper

/-- Tool 5, `echo_message` (`server.py` lines 112-125). -/
def echo_message (message : String) (uppercase : Bool) : String :=
  if uppercase then pyUpper message else message

/-- Python `str.split()` with no separator: split on whitespace runs,
dropping empty tokens; `acc` holds the current token reversed. -/
def splitWsAux : List Char → List Char → List (List Char)
  | [], acc => if acc.isEmpty then [] else [acc.reverse]
  | c :: cs, acc =>
      if c.isWhitespace then
        if acc.isEmpty then splitWsAux cs [] else acc.reverse :: splitWsAux cs []
      else splitWsAux cs (c :: acc)

/-- `text.split()` on the character list of a Python string. -/
def pySplit (l : List Char) : List (List Char) := splitWsAux l []

/-- Decimal digits `0..9` printed as characters. -/
def dChar : Nat → Char
  | 0 => '0' | 1 => '1' | 2 => '2' | 3 => '3' | 4 => '4'
  | 5 => '5' | 6 => '6' | 7 => '7' | 8 => '8' | _ => '9'

/-- Two-digit zero-padded rendering, for `%02d`-style fields. -/
def pad2 (n : Nat) : String := if n < 10 then "0" ++ toString n else toString n

/-- Four-digit zero-padded rendering, for `%Y`. -/
def pad4 (n : Nat) : String :=
  if n < 10 then "000" ++ toString n
  else if n < 100 then "00" ++ toString n
  else if n < 1000 then "0" ++ toString n
  else toString n

/-- `{x:.2f}` of the exact ratio `num / den` (`den > 0`): scale by 100 and
round half to even, as Python's float formatting does on exact halves. -/
def fmt2of (num den : Nat) : String :=
  let scaled := 100 * num
  let q := scaled / den
  let r := scaled % den
  let n := if 2 * r < den then q
    else if den < 2 * r then q + 1
    else if q % 2 = 0 then q else q + 1
  toString (n / 100) ++ "." ++ pad2 (n % 100)

/-- Tool 6, `count_words` (`server.py` lines 130-149): word count from
`text.split()`, character counts from `len`, average formatted with `:.2f`,
`0` when the word count is zero. -/
def count_words (text : String) : String :=
  let words := pySplit text.data
  let word_count := words.length
  let char_count := text.data.length
  let char_count_no_spaces := (text.data.filter (fun c => c != ' ')).length
  "Text Statistics:\n- Word count: " ++ toString word_count ++
  "\n- Character count (with spaces): " ++ toString char_count ++
  "\n- Character count (without spaces): " ++ toString char_count_no_spaces ++
  "\n- Average word length: " ++
  (if word_count > 0 then fmt2of char_count_no_spaces word_count else "0.00") ++
  " characters"

/-- A clock reading, standing for `datetime.datetime.now(datetime.timezone.utc)`;
the clock is an input of the model. -/
structure UTCTime where
  year : Nat
  month : Nat
  day : Nat
  hour : Nat
  minute : Nat
  second : Nat
deriving DecidableEq, Repr

/-- `strftime('%Y-%m-%d %H:%M:%S %Z')` of a UTC clock reading. -/
def strftimeFmt (t : UTCTime) : String :=
  pad4 t.year ++ "-" ++ pad2 t.month ++ "-" ++ pad2 t.day ++ " " ++
  pad2 t.hour ++ ":" ++ pad2 t.minute ++ ":" ++ pad2 t.second ++ " UTC"

/-- Tool 1, `get_current_time` (`server.py` lines 32-43), with the clock
reading made explicit: the `timezone` argument only appears in the label. -/
def get_current_time (now : UTCTime) (timezone : String) : String :=
  "Current time (" ++ timezone ++ "): " ++ strftimeFmt now

/-- Modelled from the spec: the constrained arithmetic grammar the spec
prescribes for the calculator (the source delegates to the external generic
Python evaluator, which is not code of this repository). Terms are decimal
literals, unary minus, `+ - * /`, parentheses, and the four allow-listed
callables `abs`, `round`, `min`, `max`. -/
inductive Expr where
  | num (n : Nat)
  | neg (a : Expr)
  | add (a b : Expr)
  | sub (a b : Expr)
  | mul (a b : Expr)
  | div (a b : Expr)
  | eabs (a : Expr)
  | ernd (a : Expr)
  | emin (a b : Expr)
  | emax (a b : Expr)
deriving DecidableEq, Repr

/-- An unnormalized fraction: the computable value representation of the
modelled evaluator (numerator over a positive denominator; normalization
happens only when rendering). -/
structure Frac where
  num : Int
  den : Nat
deriving DecidableEq, Repr

/-- Fraction addition. -/
def addF (a b : Frac) : Frac := ⟨a.num * b.den + b.num * a.den, a.den * b.den⟩

/-- Fraction subtraction. -/
def subF (a b : Frac) : Frac := ⟨a.num * b.den - b.num * a.den, a.den * b.den⟩

/-- Fraction multiplication. -/
def mulF (a b : Frac) : Frac := ⟨a.num * b.num, a.den * b.den⟩

/-- Fraction negation. -/
def negF (a : Frac) : Frac := ⟨-a.num, a.den⟩

/-- Fraction division (callers guard `b.num ≠ 0`); the sign moves to the
numerator so the denominator stays a natural. -/
def divF (a b : Frac) : Frac :=
  if 0 ≤ b.num then ⟨a.num * b.den, a.den * b.num.toNat⟩
  else ⟨-(a.num * b.den), a.den * (-b.num).toNat⟩

/-- Python `abs` on fractions. -/
def absF (a : Frac) : Frac := ⟨(a.num.natAbs : Int), a.den⟩

/-- Comparison of fractions (denominators positive). -/
def leF (a b : Frac) : Bool := a.num * b.den ≤ b.num * a.den

/-- Python binary `min`. -/
def minF (a b : Frac) : Frac := if leF a b then a else b

/-- Python binary `max`. -/
def maxF (a b : Frac) : Frac := if leF b a then a else b

/-- Floor of a fraction. -/
def floorF (a : Frac) : Int := a.num.fdiv a.den

/-- Python one-argument `round` on fractions: round half to even. -/
def roundF (a : Frac) : Int :=
  let q := floorF a
  let r := a.num - q * a.den
  if 2 * r < (a.den : Int) then q
  else if (a.den : Int) < 2 * r then q + 1
  else if q % 2 = 0 then q else q + 1

/-- An integer as a fraction. -/
def intF (i : Int) : Frac := ⟨i, 1⟩

/-- The executable evaluator of the modelled grammar; `none` is the
division-by-zero runtime error. -/
def evalE : Expr → Option Frac
  | .num n => some ⟨n, 1⟩
  | .neg a => (evalE a).map negF
  | .add a b => (evalE a).bind fun x => (evalE b).map fun y => addF x y
  | .sub a b => (evalE a).bind fun x => (evalE b).map fun y => subF x y
  | .mul a b => (evalE a).bind fun x => (evalE b).map fun y => mulF x y
  | .div a b => (evalE a).bind fun x => (evalE b).bind fun y =>
      if y.num = 0 then none else some (divF x y)
  | .eabs a => (evalE a).map absF
  | .ernd a => (evalE a).map fun x => intF (roundF x)
  | .emin a b => (evalE a).bind fun x => (evalE b).map fun y => minF x y
  | .emax a b => (evalE a).bind fun x => (evalE b).map fun y => maxF x y

/-- Round half to even on exact rationals: the specification-side meaning of
Python `round`. -/
def roundQ (x : ℚ) : Int :=
  let f := ⌊x⌋
  if x - f < 1 / 2 then f
  else if (1 : ℚ) / 2 < x - f then f + 1
  else if 2 ∣ f then f else f + 1

/-- The specification semantics of an expression, over Mathlib rationals;
`none` is division by zero. -/
def denote : Expr → Option ℚ
  | .num n => some (n : ℚ)
  | .neg a => (denote a).map (fun x => -x)
  | .add a b => (denote a).bind fun x => (denote b).map fun y => x + y
  | .sub a b => (denote a).bind fun x => (denote b).map fun y => x - y
  | .mul a b => (denote a).bind fun x => (denote b).map fun y => x * y
  | .div a b => (denote a).bind fun x => (denote b).bind fun y =>
      if y = 0 then none else some (x / y)
  | .eabs a => (denote a).map (fun x => |x|)
  | .ernd a => (denote a).map fun x => ((roundQ x : Int) : ℚ)
  | .emin a b => (denote a).bind fun x => (denote b).map fun y => min x y
  | .emax a b => (denote a).bind fun x => (denote b).map fun y => max x y

/-- The rational value a fraction stands for. -/
def fracToRat (f : Frac) : ℚ := (f.num : ℚ) / (f.den : ℚ)

/-- Is `c` a decimal digit? -/
def isDigitC (c : Char) : Bool := '0' ≤ c && c ≤ '9'

/-- Value of a digit character. -/
def dVal (c : Char) : Nat := c.toNat - 48

/-- Numeric value of a digit string (most significant first). -/
def digitsVal (l : List Char) : Nat := l.foldl (fun acc c => 10 * acc + dVal c) 0

/-- Split a character list into its leading digit run and the remainder. -/
def spanD : List Char → List Char × List Char
  | [] => ([], [])
  | c :: cs =>
      if isDigitC c then
        let p := spanD cs
        (c :: p.1, p.2)
      else ([], c :: cs)

/-- Skip blanks, as the Python evaluator tolerates spaces around tokens. -/
def skipWs : List Char → List Char
  | [] => []
  | c :: cs => if c = ' ' then skipWs cs else c :: cs

mutual

/-- Atoms of the grammar: literals, unary minus, parenthesized sums, and the
four allow-listed calls; any other name or token is a syntax error. -/
def parseAtom : Nat → List Char → Option (Expr × List Char)
  | 0, _ => none
  | f + 1, l =>
    match skipWs l with
    | [] => none
    | c :: cs =>
      if isDigitC c then
        some (.num (digitsVal (spanD (c :: cs)).1), (spanD (c :: cs)).2)
      else
        match c :: cs with
        | '-' :: cs1 =>
          match parseAtom f cs1 with
          | some (e, r) => some (.neg e, r)
          | none => none
        | '(' :: cs1 =>
          match parseSum f cs1 with
          | some (e, r) =>
            match skipWs r with
            | ')' :: r2 => some (e, r2)
            | _ => none
          | none => none
        | 'a' :: 'b' :: 's' :: cs1 => parseCall1 f Expr.eabs cs1
        | 'r' :: 'o' :: 'u' :: 'n' :: 'd' :: cs1 => parseCall1 f Expr.ernd cs1
        | 'm' :: 'i' :: 'n' :: cs1 => parseCall2 f Expr.emin cs1
        | 'm' :: 'a' :: 'x' :: cs1 => parseCall2 f Expr.emax cs1
        | _ => none

/-- One-argument call tail: `( sum )`. -/
def parseCall1 : Nat → (Expr → Expr) → List Char → Option (Expr × List Char)
  | 0, _, _ => none
  | f + 1, k, l =>
    match skipWs l with
    | '(' :: cs =>
      match parseSum f cs with
      | some (e, r) =>
        match skipWs r with
        | ')' :: r2 => some (k e, r2)
        | _ => none
      | none => none
    | _ => none

/-- Two-argument call tail: `( sum , sum )`. -/
def parseCall2 : Nat → (Expr → Expr → Expr) → List Char → Option (Expr × List Char)
  | 0, _, _ => none
  | f + 1, k, l =>
    match skipWs l with
    | '(' :: cs =>
      match parseSum f cs with
      | some (a, r) =>
        match skipWs r with
        | ',' :: cs2 =>
          match parseSum f cs2 with
          | some (b, r2) =>
            match skipWs r2 with
            | ')' :: r3 => some (k a b, r3)
            | _ => none
          | none => none
        | _ => none
      | none => none
    | _ => none

/-- Products: an atom followed by `*` / `/` chains, left associative. -/
def parseProd : Nat → List Char → Option (Expr × List Char)
  | 0, _ => none
  | f + 1, l =>
    match parseAtom f l with
    | some (e, r) => parseProdLoop f e r
    | none => none

/-- Chain of `*` and `/` after a first factor. -/
def parseProdLoop : Nat → Expr → List Char → Option (Expr × List Char)
  | 0, _, _ => none
  | f + 1, acc, l =>
    match skipWs l with
    | '*' :: cs =>
      match parseAtom f cs with
      | some (e, r) => parseProdLoop f (.mul acc e) r
      | none => none
    | '/' :: cs =>
      match parseAtom f cs with
      | some (e, r) => parseProdLoop f (.div acc e) r
      | none => none
    | _ => some (acc, l)

/-- Sums: a product followed by `+` / `-` chains, left associative. -/
def parseSum : Nat → List Char → Option (Expr × List Char)
  | 0, _ => none
  | f + 1, l =>
    match parseProd f l with
    | some (e, r) => parseSumLoop f e r
    | none => none

/-- Chain of `+` and `-` after a first summand. -/
def parseSumLoop : Nat → Expr → List Char → Option (Expr × List Char)
  | 0, _, _ => none
  | f + 1, acc, l =>
    match skipWs l with
    | '+' :: cs =>
      match parseProd f cs with
      | some (e, r) => parseSumLoop f (.add acc e) r
      | none => none
    | '-' :: cs =>
      match parseProd f cs with
      | some (e, r) => parseSumLoop f (.sub acc e) r
      | none => none
    | _ => some (acc, l)

end

/-- Evaluate one expression string: parse (with an ample recursion budget),
require the input to be fully consumed, evaluate. -/
def evalExprChars (l : List Char) : Except String Frac :=
  match parseSum (5 * l.length + 9) l with
  | some (e, rest) =>
    if skipWs rest = [] then
      match evalE e with
      | some v => .ok v
      | none => .error "division by zero"
    else .error "invalid syntax"
  | none => .error "invalid syntax"

/-- Structural gcd (fuel on the first argument), for rendering only. -/
def gcdAux : Nat → Nat → Nat → Nat
  | 0, _, n => n
  | f + 1, m, n => if m = 0 then n else gcdAux f (n % m) m

/-- Greatest common divisor, kernel-computable. -/
def ngcd (m n : Nat) : Nat := gcdAux (m + 1) m n

/-- Render a result value in lowest terms. -/
def renderFrac (f : Frac) : String :=
  let g := ngcd f.num.natAbs f.den
  let n := f.num / (g : Int)
  let d := f.den / g
  if d = 1 then toString n else toString n ++ "/" ++ toString d

/-- Modelled from the spec: the restricted evaluator standing for
`eval(expression, allowed_names)` in `server.py` line 68; every outcome is a
value or a caught error. -/
def pyEvalModel (s : String) : Except String String :=
  (evalExprChars s.data).map renderFrac

/-- The `try`/`except` body of `calculate` (`server.py` lines 58-71) over an
arbitrary total evaluator `ev`. -/
def calculateWith (ev : String → Except String String) (expression : String) : String :=
  match ev expression with
  | .ok v => "Result: " ++ v
  | .error m => "Error evaluating expression: " ++ m

/-- Tool 2, `calculate` (`server.py` lines 47-71). -/
def calculate (expression : String) : String :=
  calculateWith pyEvalModel expression

/-- The transport choices of the `--transport` flag (`server.py` line 157). -/
def transportChoices : List String := ["stdio", "sse", "streamable-http"]

/-- The `--transport` default (`server.py` line 158). -/
def transportDefault : String := "streamable-http"

/-- The `--transport` help text (`server.py` line 159). -/
def transportHelp : String := "Transport type to use (default: stdio)"

/-- The `--port` default (`server.py` line 164). -/
def portDefault : Int := 3000

/-- The `--host` default (`server.py` line 170). -/
def hostDefault : String := "0.0.0.0"

/-- argparse's `choices` check for `--transport`. -/
def parseTransport (s : String) : Option String :=
  if transportChoices.contains s then some s else none

/-- One invocation of `mcp.run` as selected by the bootstrap: `stdio` carries
no port or host, the two network bindings carry both. -/
inductive RunCall where
  | stdio
  | sse (port : Int) (host : String)
  | streamableHttp (port : Int) (host : String)
deriving DecidableEq, Repr

/-- The dispatch on `args.transport` (`server.py` lines 177-182). -/
def dispatch (transport : String) (port : Int) (host : String) : Option RunCall :=
  if transport = "stdio" then some .stdio
  else if transport = "sse" then some (.sse port host)
  else if transport = "streamable-http" then some (.streamableHttp port host)
  else none

/-- One tool request, with every external input (arguments, clock) explicit. -/
inductive Call where
  | time (now : UTCTime) (tz : String)
  | calc (expression : String)
  | users
  | tasks (status : Option String) (user_id : Option Int)
  | echo (message : String) (uppercase : Bool)
  | words (text : String)

/-- Handle one request against the store, returning the response and the
store left behind: each handler only reads the store (filters build new
lists), as in `server.py`. -/
def runCall (s : Store) : Call → String × Store
  | .time now tz => (get_current_time now tz, s)
  | .calc e => (calculate e, s)
  | .users => (dumpUsers s.users, s)
  | .tasks st uid => (dumpTasks (filterTasks s.tasks st uid), s)
  | .echo m u => (echo_message m u, s)
  | .words t => (count_words t, s)

/-- The store after serving a sequence of requests. -/
def runCalls : List Call → Store → Store
  | [], s => s
  | c :: cs, s => runCalls cs (runCall s c).2

/-- Canonical (fully parenthesized) rendering of an expression; every term of
the grammar is the meaning of such a string. -/
def natDigitsF : Nat → Nat → List Char
  | 0, _ => []
  | f + 1, n => if n < 10 then [dChar n] else natDigitsF f (n / 10) ++ [dChar (n % 10)]

/-- Decimal digits of `n`, most significant first. -/
def natDigits (n : Nat) : List Char := natDigitsF (n + 1) n

/-- Canonical rendering of an expression as an input string of the grammar. -/
def printE : Expr → List Char
  | .num n => natDigits n
  | .neg a => '(' :: '-' :: (printE a ++ [')'])
  | .add a b => '(' :: (printE a ++ '+' :: printE b ++ [')'])
  | .sub a b => '(' :: (printE a ++ '-' :: printE b ++ [')'])
  | .mul a b => '(' :: (printE a ++ '*' :: printE b ++ [')'])
  | .div a b => '(' :: (printE a ++ '/' :: printE b ++ [')'])
  | .eabs a => 'a' :: 'b' :: 's' :: '(' :: (printE a ++ [')'])
  | .ernd a => 'r' :: 'o' :: 'u' :: 'n' :: 'd' :: '(' :: (printE a ++ [')'])
  | .emin a b => 'm' :: 'i' :: 'n' :: '(' :: (printE a ++ ',' :: printE b ++ [')'])
  | .emax a b => 'm' :: 'a' :: 'x' :: '(' :: (printE a ++ ',' :: printE b ++ [')'])

/-- Size of an expression, for recursion budgets. -/
def esize : Expr → Nat
  | .num _ => 1
  | .neg a => esize a + 1
  | .eabs a => esize a + 1
  | .ernd a => esize a + 1
  | .add a b => esize a + esize b + 1
  | .sub a b => esize a + esize b + 1
  | .mul a b => esize a + esize b + 1
  | .div a b => esize a + esize b + 1
  | .emin a b => esize a + esize b + 1
  | .emax a b => esize a + esize b + 1


/-- Rests after which an atom parse must stop cleanly: empty, or starting
with a token that can follow an atom. -/
def stopAtom (r : List Char) : Prop :=
  r = [] ∨ ∃ c cs, r = c :: cs ∧
    (c = ')' ∨ c = ',' ∨ c = '+' ∨ c = '-' ∨ c = '*' ∨ c = '/')

/-- Rests after which a product chain stops: empty, `)` `,` `+` or `-`. -/
def stopProd (r : List Char) : Prop :=
  r = [] ∨ ∃ c cs, r = c :: cs ∧ (c = ')' ∨ c = ',' ∨ c = '+' ∨ c = '-')

/-- Rests after which a sum chain stops: empty, `)` or `,`. -/
def stopSum (r : List Char) : Prop :=
  r = [] ∨ ∃ c cs, r = c :: cs ∧ (c = ')' ∨ c = ',')

/-- `A` parses as the atom `a` at every budget of at least `F`, leaving any
clean rest intact. -/
def AtomParses (F : Nat) (A : List Char) (a : Expr) : Prop :=
  ∀ (f : Nat) (r : List Char), F ≤ f → stopAtom r →
    parseAtom f (A ++ r) = some (a, r)

/-- A rest is digit-free at its head. -/
def headNotDigit (r : List Char) : Prop :=
  r = [] ∨ ∃ c cs, r = c :: cs ∧ isDigitC c = false

/-! ## Theorems -/

/-- Filtering twice is filtering by the conjunction. -/
theorem filter_comp_tasks (l : List Task) (p q : Task → Bool) :
    (l.filter p).filter q = l.filter fun t => p t && q t := by
  rw [List.filter_filter]; simp [Bool.and_comm]

/-- Claim C2 (amended): for a non-empty status the filter keeps exactly the
matching tasks (hence an empty result for any non-enum non-empty status), a
truthy status combined with a non-zero user id yields the intersection, and
omitted filters pass all records. -/
theorem get_tasks_filter_spec :
    (get_tasksList (some "completed") none
        = SAMPLE_DATA.tasks.filter (fun t => t.status == "completed"))
    ∧ (∀ s : String, s ≠ "" → s ≠ "pending" → s ≠ "in_progress" → s ≠ "completed" →
        get_tasksList (some s) none = [])
    ∧ (∀ (s : String) (u : Int), s ≠ "" → u ≠ 0 →
        get_tasksList (some s) (some u)
          = SAMPLE_DATA.tasks.filter (fun t => t.status == s && t.user_id == u))
    ∧ get_tasksList none none = SAMPLE_DATA.tasks := by
  refine ⟨by decide, ?_, ?_, rfl⟩
  · intro s h0 h1 h2 h3
    simp [get_tasksList, filterTasks, pyTruthyStr, pyTruthyInt, SAMPLE_DATA, h0,
      List.filter_cons, Ne.symm h1, Ne.symm h2, Ne.symm h3]
  · intro s u h0 hu
    simp only [get_tasksList, filterTasks, pyTruthyStr, pyTruthyInt, Option.getD]
    simp [h0, hu, filter_comp_tasks, Bool.and_comm]

/-- Claim C2, counterexample to the claim as stated: the empty string is not
one of the three enum values yet selects every task, and a zero user id
combined with a status filter does not produce the intersection. -/
theorem get_tasks_filter_claim_counterexample :
    ("" ∉ ["pending", "in_progress", "completed"]
      ∧ get_tasksList (some "") none = SAMPLE_DATA.tasks
      ∧ SAMPLE_DATA.tasks ≠ [])
    ∧ get_tasksList (some "completed") (some 0)
        ≠ SAMPLE_DATA.tasks.filter
            (fun t => t.status == "completed" && t.user_id == 0) := by
  exact ⟨⟨by decide, by decide, by decide⟩, by decide⟩

/-- Claim C2, witness: concrete instances of the amended filter statement. -/
theorem get_tasks_filter_spec_witness :
    get_tasksList (some "archived") none = []
    ∧ get_tasksList (some "completed") (some 1)
        = [⟨3, "Write documentation", "completed", 1⟩] := by
  constructor
  · exact get_tasks_filter_spec.2.1 "archived"
      (by decide) (by decide) (by decide) (by decide)
  · have h := get_tasks_filter_spec.2.2.1 "completed" 1 (by decide) (by decide)
    rw [h]; decide

/-- Claim C3: a zero `user_id` filter behaves exactly like an absent one, for
every status argument, both on the filtered list and on the serialized
response. -/
theorem get_tasks_user_id_zero_absent (status : Option String) :
    get_tasksList status (some 0) = get_tasksList status none
      ∧ get_tasks status (some 0) = get_tasks status none := by
  have h : get_tasksList status (some 0) = get_tasksList status none := by
    simp [get_tasksList, filterTasks, pyTruthyInt]
  exact ⟨h, by simp [get_tasks, h]⟩

/-- Claim C10: an empty-string status filter behaves exactly like an absent
one (the same falsy-sentinel behavior as `user_id = 0`): it selects all
tasks, not the empty collection other invalid statuses yield. -/
theorem get_tasks_empty_status_absent :
    (∀ user_id : Option Int,
        get_tasksList (some "") user_id = get_tasksList none user_id
        ∧ get_tasks (some "") user_id = get_tasks none user_id)
    ∧ get_tasksList (some "") none = SAMPLE_DATA.tasks
    ∧ SAMPLE_DATA.tasks ≠ [] := by
  have h : ∀ user_id, get_tasksList (some "") user_id = get_tasksList none user_id := by
    intro user_id
    simp [get_tasksList, filterTasks, pyTruthyStr]
  exact ⟨fun u => ⟨h u, by simp [get_tasks, h u]⟩, by decide, by decide⟩

/-- Claim C5: echo returns the message unchanged when `uppercase` is false
and the uppercased message when it is true. -/
theorem echo_message_spec (m : String) :
    echo_message m false = m ∧ echo_message m true = pyUpper m :=
  ⟨rfl, rfl⟩

/-- Claim C4: the word-count report always shows the whitespace-run token
count, the full character count, the space-free character count, and the
two-decimal average guarded against a zero word count; on `""` the counts
are `0` and the average renders as `0.00`, and on `"a bb ccc"` they are
`3`, `8`, `6`, and `2.00`. -/
theorem count_words_spec :
    (∀ text : String,
        count_words text =
          "Text Statistics:\n- Word count: " ++ toString (pySplit text.data).length ++
          "\n- Character count (with spaces): " ++ toString text.data.length ++
          "\n- Character count (without spaces): " ++
            toString (text.data.filter (fun c => c != ' ')).length ++
          "\n- Average word length: " ++
          (if 0 < (pySplit text.data).length then
              fmt2of (text.data.filter (fun c => c != ' ')).length
                (pySplit text.data).length
            else "0.00") ++ " characters")
    ∧ count_words ""
        = "Text Statistics:\n- Word count: 0\n- Character count (with spaces): 0\n- Character count (without spaces): 0\n- Average word length: 0.00 characters"
    ∧ count_words "a bb ccc"
        = "Text Statistics:\n- Word count: 3\n- Character count (with spaces): 8\n- Character count (without spaces): 6\n- Average word length: 2.00 characters" :=
  ⟨fun _ => rfl, rfl, rfl⟩

/-- Claim C7: the timestamp of the time tool is computed from the UTC clock
reading alone; the timezone argument only changes the label, so two calls at
the same clock reading carry the same timestamp for every timezone. -/
theorem get_current_time_spec (now : UTCTime) (tz1 tz2 : String) :
    get_current_time now tz1 = "Current time (" ++ tz1 ++ "): " ++ strftimeFmt now
    ∧ ∃ stamp : String,
        get_current_time now tz1 = "Current time (" ++ tz1 ++ "): " ++ stamp
        ∧ get_current_time now tz2 = "Current time (" ++ tz2 ++ "): " ++ stamp :=
  ⟨rfl, strftimeFmt now, rfl, rfl⟩

/-- Claim C8: `--transport` accepts exactly the three listed bindings and
defaults to `streamable-http` while its help text claims `stdio`; `--port`
defaults to 3000 and reaches the runtime only for the two network bindings;
`--host` defaults to `0.0.0.0`. -/
theorem cli_flags_spec :
    (∀ s : String, parseTransport s = some s ↔ s ∈ transportChoices)
    ∧ transportChoices = ["stdio", "sse", "streamable-http"]
    ∧ transportDefault = "streamable-http"
    ∧ transportDefault ≠ "stdio"
    ∧ transportHelp = "Transport type to use (default: stdio)"
    ∧ portDefault = 3000
    ∧ hostDefault = "0.0.0.0"
    ∧ (∀ (p : Int) (h : String), dispatch "stdio" p h = some RunCall.stdio)
    ∧ (∀ (p : Int) (h : String), dispatch "sse" p h = some (RunCall.sse p h))
    ∧ (∀ (p : Int) (h : String),
        dispatch "streamable-http" p h = some (RunCall.streamableHttp p h)) := by
  refine ⟨?_, rfl, rfl, by decide, rfl, rfl, rfl,
    fun p h => rfl, fun p h => rfl, fun p h => rfl⟩
  intro s
  unfold parseTransport
  split <;> simp_all

/-- Claim C9: no handler writes the sample store: every call hands the store
back unchanged, so after any sequence of calls the store still holds the
static records, and `get_users` / unfiltered `get_tasks` observe the same
serializations as at startup. -/
theorem handlers_readonly :
    (∀ (s : Store) (c : Call), (runCall s c).2 = s)
    ∧ (∀ calls : List Call, runCalls calls SAMPLE_DATA = SAMPLE_DATA)
    ∧ (∀ calls : List Call,
        (runCall (runCalls calls SAMPLE_DATA) Call.users).1 = get_users)
    ∧ (∀ calls : List Call,
        (runCall (runCalls calls SAMPLE_DATA) (Call.tasks none none)).1
          = get_tasks none none) := by
  have h1 : ∀ (s : Store) (c : Call), (runCall s c).2 = s := by
    intro s c; cases c <;> rfl
  have h2 : ∀ (calls : List Call) (s : Store), runCalls calls s = s := by
    intro calls
    induction calls with
    | nil => intro s; rfl
    | cons c cs ih => intro s; rw [runCalls, h1, ih]
  exact ⟨h1, fun calls => h2 calls _,
    fun calls => by rw [h2]; rfl, fun calls => by rw [h2]; rfl⟩

/-- Claim C1: for every evaluator outcome and every input string, the
calculator responds either `Result: <value>` or
`Error evaluating expression: <message>`; no other response shape exists. -/
theorem calculate_output_shape :
    (∀ (ev : String → Except String String) (s : String),
        (∃ v, calculateWith ev s = "Result: " ++ v)
        ∨ (∃ m, calculateWith ev s = "Error evaluating expression: " ++ m))
    ∧ (∀ s : String,
        (∃ v, calculate s = "Result: " ++ v)
        ∨ (∃ m, calculate s = "Error evaluating expression: " ++ m)) := by
  have h : ∀ (ev : String → Except String String) (s : String),
      (∃ v, calculateWith ev s = "Result: " ++ v)
      ∨ (∃ m, calculateWith ev s = "Error evaluating expression: " ++ m) := by
    intro ev s
    cases hv : ev s with
    | ok v => exact .inl ⟨v, by simp [calculateWith, hv]⟩
    | error m => exact .inr ⟨m, by simp [calculateWith, hv]⟩
  exact ⟨h, fun s => h pyEvalModel s⟩

/-- Digit characters printed by `dChar` are digits. -/
theorem isDigitC_dChar (n : Nat) (h : n < 10) : isDigitC (dChar n) = true := by
  interval_cases n <;> decide

/-- `dVal` undoes `dChar` below ten. -/
theorem dVal_dChar (n : Nat) (h : n < 10) : dVal (dChar n) = n := by
  interval_cases n <;> decide

/-- A digit is not a space. -/
theorem digit_ne_space {c : Char} (h : isDigitC c = true) : c ≠ ' ' := by
  intro heq; subst heq; exact absurd h (by decide)

/-- Every rendered digit list consists of digits. -/
theorem natDigitsF_digits : ∀ (f n : Nat), n < f →
    ∀ c ∈ natDigitsF f n, isDigitC c = true := by
  intro f
  induction f with
  | zero => intro n h; omega
  | succ f ih =>
    intro n h c hc
    by_cases h10 : n < 10
    · simp [natDigitsF, h10] at hc
      exact hc ▸ isDigitC_dChar n h10
    · simp only [natDigitsF, h10, if_false] at hc
      rcases List.mem_append.1 hc with h1 | h2
      · exact ih (n / 10) (by omega) c h1
      · simp at h2
        exact h2 ▸ isDigitC_dChar (n % 10) (by omega)

/-- Rendered digit lists are never empty. -/
theorem natDigitsF_ne_nil : ∀ (f n : Nat), n < f → natDigitsF f n ≠ [] := by
  intro f
  induction f with
  | zero => intro n h; omega
  | succ f ih =>
    intro n h
    by_cases h10 : n < 10 <;> simp [natDigitsF, h10]

/-- Value of a digit list with one digit appended. -/
theorem digitsVal_append_single (l : List Char) (c : Char) :
    digitsVal (l ++ [c]) = 10 * digitsVal l + dVal c := by
  simp [digitsVal, List.foldl_append]

/-- Rendering then revaluing a natural is the identity. -/
theorem digitsVal_natDigitsF : ∀ (f n : Nat), n < f →
    digitsVal (natDigitsF f n) = n := by
  intro f
  induction f with
  | zero => intro n h; omega
  | succ f ih =>
    intro n h
    by_cases h10 : n < 10
    · simp [natDigitsF, h10, digitsVal, dVal_dChar n h10]
    · rw [natDigitsF]
      simp only [h10, if_false]
      rw [digitsVal_append_single, ih (n / 10) (by omega), dVal_dChar (n % 10) (by omega)]
      omega

/-- The canonical digits of `n`: nonempty, all digits, value `n`. -/
theorem natDigits_spec (n : Nat) :
    natDigits n ≠ [] ∧ (∀ c ∈ natDigits n, isDigitC c = true)
      ∧ digitsVal (natDigits n) = n :=
  ⟨natDigitsF_ne_nil _ n (by omega), natDigitsF_digits _ n (by omega),
    digitsVal_natDigitsF _ n (by omega)⟩

/-- `spanD` splits a digit prefix off exactly. -/
theorem spanD_append : ∀ (ds rest : List Char),
    (∀ c ∈ ds, isDigitC c = true) → headNotDigit rest →
    spanD (ds ++ rest) = (ds, rest) := by
  intro ds
  induction ds with
  | nil =>
    intro rest _ hr
    rcases hr with rfl | ⟨c, cs, rfl, hc⟩
    · rfl
    · simp [spanD, hc]
  | cons d ds ih =>
    intro rest hall hr
    have hd : isDigitC d = true := hall d (List.mem_cons_self d ds)
    simp [spanD, hd, ih rest (fun c hc => hall c (List.mem_cons_of_mem d hc)) hr]

/-- Skipping blanks leaves a non-blank-headed list alone. -/
theorem skipWs_cons_of_ne (c : Char) (l : List Char) (h : c ≠ ' ') :
    skipWs (c :: l) = c :: l := by
  simp [skipWs, h]

/-- A sum stop is a product stop. -/
theorem stopSum_stopProd {r : List Char} (h : stopSum r) : stopProd r := by
  rcases h with rfl | ⟨c, cs, rfl, hc⟩
  · exact .inl rfl
  · exact .inr ⟨c, cs, rfl, by tauto⟩

/-- A product stop is an atom stop. -/
theorem stopProd_stopAtom {r : List Char} (h : stopProd r) : stopAtom r := by
  rcases h with rfl | ⟨c, cs, rfl, hc⟩
  · exact .inl rfl
  · exact .inr ⟨c, cs, rfl, by tauto⟩

/-- A sum stop is an atom stop. -/
theorem stopSum_stopAtom {r : List Char} (h : stopSum r) : stopAtom r :=
  stopProd_stopAtom (stopSum_stopProd h)

/-- An atom stop has no digit at its head. -/
theorem stopAtom_headNotDigit {r : List Char} (h : stopAtom r) : headNotDigit r := by
  rcases h with rfl | ⟨c, cs, rfl, hc⟩
  · exact .inl rfl
  · refine .inr ⟨c, cs, rfl, ?_⟩
    rcases hc with rfl | rfl | rfl | rfl | rfl | rfl <;> rfl

/-- The sum loop stops cleanly at a sum stop. -/
theorem parseSumLoop_stop (f : Nat) (acc : Expr) (l : List Char) (h : stopSum l) :
    parseSumLoop (f + 1) acc l = some (acc, l) := by
  rcases h with rfl | ⟨c, cs, rfl, hc⟩
  · rfl
  · rcases hc with rfl | rfl <;> rfl

/-- The product loop stops cleanly at a product stop. -/
theorem parseProdLoop_stop (f : Nat) (acc : Expr) (l : List Char) (h : stopProd l) :
    parseProdLoop (f + 1) acc l = some (acc, l) := by
  rcases h with rfl | ⟨c, cs, rfl, hc⟩
  · rfl
  · rcases hc with rfl | rfl | rfl | rfl <;> rfl

/-- A single atom followed by a sum stop parses as a whole sum. -/
theorem parseSum_atom {F : Nat} {A : List Char} {a : Expr}
    (hA : AtomParses F A a) :
    ∀ (f : Nat) (r : List Char), F + 3 ≤ f → stopSum r →
      parseSum f (A ++ r) = some (a, r) := by
  intro f r hf hr
  obtain ⟨f3, rfl⟩ : ∃ k, f = k + 3 := ⟨f - 3, by omega⟩
  have hatom : parseAtom (f3 + 1) (A ++ r) = some (a, r) :=
    hA _ _ (by omega) (stopSum_stopAtom hr)
  show parseSum (f3 + 2 + 1) (A ++ r) = some (a, r)
  simp only [parseSum, parseProd, hatom,
    parseProdLoop_stop _ _ _ (stopSum_stopProd hr),
    parseSumLoop_stop _ _ _ hr]

/-- Unfolding: a leading minus parses the next atom and negates it. -/
theorem parseAtom_succ_dash (f : Nat) (l : List Char) :
    parseAtom (f + 1) ('-' :: l) =
      match parseAtom f l with
      | some (e, r) => some (.neg e, r)
      | none => none := rfl

/-- Unfolding: a leading parenthesis parses a sum and a closing parenthesis. -/
theorem parseAtom_succ_paren (f : Nat) (l : List Char) :
    parseAtom (f + 1) ('(' :: l) =
      match parseSum f l with
      | some (e, r) =>
        (match skipWs r with
          | ')' :: r2 => some (e, r2)
          | _ => none)
      | none => none := rfl

/-- Unfolding: the `abs` name dispatches to a one-argument call. -/
theorem parseAtom_succ_abs (f : Nat) (l : List Char) :
    parseAtom (f + 1) ('a' :: 'b' :: 's' :: l) = parseCall1 f Expr.eabs l := rfl

/-- Unfolding: the `round` name dispatches to a one-argument call. -/
theorem parseAtom_succ_round (f : Nat) (l : List Char) :
    parseAtom (f + 1) ('r' :: 'o' :: 'u' :: 'n' :: 'd' :: l)
      = parseCall1 f Expr.ernd l := rfl

/-- Unfolding: the `min` name dispatches to a two-argument call. -/
theorem parseAtom_succ_min (f : Nat) (l : List Char) :
    parseAtom (f + 1) ('m' :: 'i' :: 'n' :: l) = parseCall2 f Expr.emin l := rfl

/-- Unfolding: the `max` name dispatches to a two-argument call. -/
theorem parseAtom_succ_max (f : Nat) (l : List Char) :
    parseAtom (f + 1) ('m' :: 'a' :: 'x' :: l) = parseCall2 f Expr.emax l := rfl

/-- Unfolding: a one-argument call body. -/
theorem parseCall1_succ (f : Nat) (k : Expr → Expr) (l : List Char) :
    parseCall1 (f + 1) k ('(' :: l) =
      match parseSum f l with
      | some (e, r) =>
        (match skipWs r with
          | ')' :: r2 => some (k e, r2)
          | _ => none)
      | none => none := rfl

/-- Unfolding: a two-argument call body. -/
theorem parseCall2_succ (f : Nat) (k : Expr → Expr → Expr) (l : List Char) :
    parseCall2 (f + 1) k ('(' :: l) =
      match parseSum f l with
      | some (a, r) =>
        (match skipWs r with
          | ',' :: cs2 =>
            (match parseSum f cs2 with
              | some (b, r2) =>
                (match skipWs r2 with
                  | ')' :: r3 => some (k a b, r3)
                  | _ => none)
              | none => none)
          | _ => none)
      | none => none := rfl

/-- Unfolding: the sum parser parses a product then its chain. -/
theorem parseSum_succ (f : Nat) (l : List Char) :
    parseSum (f + 1) l =
      match parseProd f l with
      | some (e, r) => parseSumLoop f e r
      | none => none := rfl

/-- Unfolding: the product parser parses an atom then its chain. -/
theorem parseProd_succ (f : Nat) (l : List Char) :
    parseProd (f + 1) l =
      match parseAtom f l with
      | some (e, r) => parseProdLoop f e r
      | none => none := rfl

/-- Unfolding: a plus continues the sum chain. -/
theorem parseSumLoop_plus (f : Nat) (acc : Expr) (l : List Char) :
    parseSumLoop (f + 1) acc ('+' :: l) =
      match parseProd f l with
      | some (e, r) => parseSumLoop f (.add acc e) r
      | none => none := rfl

/-- Unfolding: a minus continues the sum chain. -/
theorem parseSumLoop_minus (f : Nat) (acc : Expr) (l : List Char) :
    parseSumLoop (f + 1) acc ('-' :: l) =
      match parseProd f l with
      | some (e, r) => parseSumLoop f (.sub acc e) r
      | none => none := rfl

/-- Unfolding: a star continues the product chain. -/
theorem parseProdLoop_star (f : Nat) (acc : Expr) (l : List Char) :
    parseProdLoop (f + 1) acc ('*' :: l) =
      match parseAtom f l with
      | some (e, r) => parseProdLoop f (.mul acc e) r
      | none => none := rfl

/-- Unfolding: a slash continues the product chain. -/
theorem parseProdLoop_slash (f : Nat) (acc : Expr) (l : List Char) :
    parseProdLoop (f + 1) acc ('/' :: l) =
      match parseAtom f l with
      | some (e, r) => parseProdLoop f (.div acc e) r
      | none => none := rfl

/-- A negated atom is an atom. -/
theorem parseAtom_neg {F : Nat} {A : List Char} {a : Expr}
    (hA : AtomParses F A a) : AtomParses (F + 1) ('-' :: A) (.neg a) := by
  intro f r hf hr
  obtain ⟨f1, rfl⟩ : ∃ k, f = k + 1 := ⟨f - 1, by omega⟩
  rw [List.cons_append, parseAtom_succ_dash, hA f1 r (by omega) hr]

/-- Two atoms joined by `+` or `-` parse as the sum chain. -/
theorem parseSum_chain_sum {FA FB : Nat} {A B : List Char} {a b : Expr}
    {c : Char} {mk : Expr → Expr → Expr}
    (hc : (c = '+' ∧ mk = Expr.add) ∨ (c = '-' ∧ mk = Expr.sub))
    (hA : AtomParses FA A a) (hB : AtomParses FB B b) :
    ∀ (f : Nat) (rest : List Char), FA + 3 ≤ f → FB + 4 ≤ f → stopSum rest →
      parseSum f (A ++ (c :: (B ++ rest))) = some (mk a b, rest) := by
  intro f rest hfa hfb hr
  obtain ⟨f4, rfl⟩ : ∃ k, f = k + 4 := ⟨f - 4, by omega⟩
  have hstopc : stopAtom (c :: (B ++ rest)) := by
    refine .inr ⟨c, B ++ rest, rfl, ?_⟩
    rcases hc with ⟨rfl, _⟩ | ⟨rfl, _⟩ <;> tauto
  have hstopcP : stopProd (c :: (B ++ rest)) := by
    refine .inr ⟨c, B ++ rest, rfl, ?_⟩
    rcases hc with ⟨rfl, _⟩ | ⟨rfl, _⟩ <;> tauto
  have hA1 : parseAtom (f4 + 2) (A ++ (c :: (B ++ rest))) = some (a, c :: (B ++ rest)) :=
    hA _ _ (by omega) hstopc
  have hB1 : parseAtom (f4 + 1) (B ++ rest) = some (b, rest) :=
    hB _ _ (by omega) (stopSum_stopAtom hr)
  rcases hc with ⟨rfl, rfl⟩ | ⟨rfl, rfl⟩ <;>
    simp only [parseSum_succ, parseProd_succ, hA1, hB1,
      parseProdLoop_stop _ _ _ hstopcP,
      parseSumLoop_plus, parseSumLoop_minus,
      parseProdLoop_stop _ _ _ (stopSum_stopProd hr),
      parseSumLoop_stop _ _ _ hr]

/-- Two atoms joined by `*` or `/` parse as the product chain. -/
theorem parseSum_chain_prod {FA FB : Nat} {A B : List Char} {a b : Expr}
    {c : Char} {mk : Expr → Expr → Expr}
    (hc : (c = '*' ∧ mk = Expr.mul) ∨ (c = '/' ∧ mk = Expr.div))
    (hA : AtomParses FA A a) (hB : AtomParses FB B b) :
    ∀ (f : Nat) (rest : List Char), FA + 3 ≤ f → FB + 4 ≤ f → stopSum rest →
      parseSum f (A ++ (c :: (B ++ rest))) = some (mk a b, rest) := by
  intro f rest hfa hfb hr
  obtain ⟨f4, rfl⟩ : ∃ k, f = k + 4 := ⟨f - 4, by omega⟩
  have hstopc : stopAtom (c :: (B ++ rest)) := by
    refine .inr ⟨c, B ++ rest, rfl, ?_⟩
    rcases hc with ⟨rfl, _⟩ | ⟨rfl, _⟩ <;> tauto
  have hA1 : parseAtom (f4 + 2) (A ++ (c :: (B ++ rest))) = some (a, c :: (B ++ rest)) :=
    hA _ _ (by omega) hstopc
  have hB1 : parseAtom (f4 + 1) (B ++ rest) = some (b, rest) :=
    hB _ _ (by omega) (stopSum_stopAtom hr)
  rcases hc with ⟨rfl, rfl⟩ | ⟨rfl, rfl⟩ <;>
    simp only [parseSum_succ, parseProd_succ, hA1, hB1,
      parseProdLoop_star, parseProdLoop_slash,
      parseProdLoop_stop _ _ _ (stopSum_stopProd hr),
      parseSumLoop_stop _ _ _ hr]

/-- Unfolding: a digit head parses a literal via the digit span. -/
theorem parseAtom_succ_digit (f : Nat) (c : Char) (cs : List Char)
    (h : isDigitC c = true) :
    parseAtom (f + 1) (c :: cs) =
      some (.num (digitsVal (spanD (c :: cs)).1), (spanD (c :: cs)).2) := by
  have hs : skipWs (c :: cs) = c :: cs :=
    skipWs_cons_of_ne _ _ (digit_ne_space h)
  simp [parseAtom, hs, h]

/-- Expressions have positive size. -/
theorem esize_pos : ∀ e : Expr, 1 ≤ esize e := by
  intro e; cases e <;> simp [esize]

/-- Every canonically printed expression parses back to itself, at any
budget of at least five times its size plus five. -/
theorem printE_parses : ∀ e : Expr, AtomParses (5 * esize e + 5) (printE e) e := by
  intro e
  induction e with
  | num n =>
    intro f r hf hr
    obtain ⟨f1, rfl⟩ : ∃ k, f = k + 1 := ⟨f - 1, by omega⟩
    obtain ⟨hne, hall, hval⟩ := natDigits_spec n
    rcases hcons : natDigits n with _ | ⟨d, ds⟩
    · exact absurd hcons hne
    · have hd : isDigitC d = true := by
        apply hall; rw [hcons]; exact List.mem_cons_self d ds
      have hspan : spanD ((d :: ds) ++ r) = (d :: ds, r) := by
        apply spanD_append
        · intro c hc; apply hall; rw [hcons]; exact hc
        · exact stopAtom_headNotDigit hr
      have hvn : digitsVal (d :: ds) = n := by rw [← hcons]; exact hval
      show parseAtom (f1 + 1) (printE (.num n) ++ r) = some (.num n, r)
      rw [show printE (.num n) = natDigits n from rfl, hcons, List.cons_append,
        parseAtom_succ_digit f1 d (ds ++ r) hd, ← List.cons_append, hspan]
      simp [hvn]
  | neg a ih =>
    intro f r hf hr
    have hf' : 5 * (esize a + 1) + 5 ≤ f := by
      have : esize (Expr.neg a) = esize a + 1 := rfl
      omega
    obtain ⟨f1, rfl⟩ : ∃ k, f = k + 1 := ⟨f - 1, by omega⟩
    have hsum : parseSum f1 (('-' :: printE a) ++ (')' :: r)) = some (.neg a, ')' :: r) :=
      parseSum_atom (parseAtom_neg ih) f1 (')' :: r) (by omega)
        (.inr ⟨')', r, rfl, .inl rfl⟩)
    rw [List.cons_append] at hsum
    show parseAtom (f1 + 1) (printE (.neg a) ++ r) = some (.neg a, r)
    rw [show printE (.neg a) = '(' :: '-' :: (printE a ++ [')']) from rfl]
    simp only [List.cons_append, List.append_assoc, List.singleton_append, List.nil_append]
    rw [parseAtom_succ_paren, hsum]; rfl
  | add a b iha ihb =>
    intro f r hf hr
    have hsa : 1 ≤ esize a := esize_pos a
    have hsb : 1 ≤ esize b := esize_pos b
    have hf' : 5 * (esize a + esize b + 1) + 5 ≤ f := by
      have : esize (Expr.add a b) = esize a + esize b + 1 := rfl
      omega
    obtain ⟨f1, rfl⟩ : ∃ k, f = k + 1 := ⟨f - 1, by omega⟩
    have hsum := parseSum_chain_sum (Or.inl ⟨rfl, rfl⟩) iha ihb f1 (')' :: r)
      (by omega) (by omega) (.inr ⟨')', r, rfl, .inl rfl⟩)
    show parseAtom (f1 + 1) (printE (.add a b) ++ r) = some (.add a b, r)
    rw [show printE (.add a b) = '(' :: (printE a ++ '+' :: printE b ++ [')']) from rfl]
    simp only [List.cons_append, List.append_assoc, List.singleton_append, List.nil_append]
    rw [parseAtom_succ_paren, hsum]; rfl
  | sub a b iha ihb =>
    intro f r hf hr
    have hsa : 1 ≤ esize a := esize_pos a
    have hsb : 1 ≤ esize b := esize_pos b
    have hf' : 5 * (esize a + esize b + 1) + 5 ≤ f := by
      have : esize (Expr.sub a b) = esize a + esize b + 1 := rfl
      omega
    obtain ⟨f1, rfl⟩ : ∃ k, f = k + 1 := ⟨f - 1, by omega⟩
    have hsum := parseSum_chain_sum (Or.inr ⟨rfl, rfl⟩) iha ihb f1 (')' :: r)
      (by omega) (by omega) (.inr ⟨')', r, rfl, .inl rfl⟩)
    show parseAtom (f1 + 1) (printE (.sub a b) ++ r) = some (.sub a b, r)
    rw [show printE (.sub a b) = '(' :: (printE a ++ '-' :: printE b ++ [')']) from rfl]
    simp only [List.cons_append, List.append_assoc, List.singleton_append, List.nil_append]
    rw [parseAtom_succ_paren, hsum]; rfl
  | mul a b iha ihb =>
    intro f r hf hr
    have hsa : 1 ≤ esize a := esize_pos a
    have hsb : 1 ≤ esize b := esize_pos b
    have hf' : 5 * (esize a + esize b + 1) + 5 ≤ f := by
      have : esize (Expr.mul a b) = esize a + esize b + 1 := rfl
      omega
    obtain ⟨f1, rfl⟩ : ∃ k, f = k + 1 := ⟨f - 1, by omega⟩
    have hsum := parseSum_chain_prod (Or.inl ⟨rfl, rfl⟩) iha ihb f1 (')' :: r)
      (by omega) (by omega) (.inr ⟨')', r, rfl, .inl rfl⟩)
    show parseAtom (f1 + 1) (printE (.mul a b) ++ r) = some (.mul a b, r)
    rw [show printE (.mul a b) = '(' :: (printE a ++ '*' :: printE b ++ [')']) from rfl]
    simp only [List.cons_append, List.append_assoc, List.singleton_append, List.nil_append]
    rw [parseAtom_succ_paren, hsum]; rfl
  | div a b iha ihb =>
    intro f r hf hr
    have hsa : 1 ≤ esize a := esize_pos a
    have hsb : 1 ≤ esize b := esize_pos b
    have hf' : 5 * (esize a + esize b + 1) + 5 ≤ f := by
      have : esize (Expr.div a b) = esize a + esize b + 1 := rfl
      omega
    obtain ⟨f1, rfl⟩ : ∃ k, f = k + 1 := ⟨f - 1, by omega⟩
    have hsum := parseSum_chain_prod (Or.inr ⟨rfl, rfl⟩) iha ihb f1 (')' :: r)
      (by omega) (by omega) (.inr ⟨')', r, rfl, .inl rfl⟩)
    show parseAtom (f1 + 1) (printE (.div a b) ++ r) = some (.div a b, r)
    rw [show printE (.div a b) = '(' :: (printE a ++ '/' :: printE b ++ [')']) from rfl]
    simp only [List.cons_append, List.append_assoc, List.singleton_append, List.nil_append]
    rw [parseAtom_succ_paren, hsum]; rfl
  | eabs a ih =>
    intro f r hf hr
    have hf' : 5 * (esize a + 1) + 5 ≤ f := by
      have : esize (Expr.eabs a) = esize a + 1 := rfl
      omega
    obtain ⟨f2, rfl⟩ : ∃ k, f = k + 2 := ⟨f - 2, by omega⟩
    have hsum : parseSum f2 (printE a ++ (')' :: r)) = some (a, ')' :: r) :=
      parseSum_atom ih f2 (')' :: r) (by omega) (.inr ⟨')', r, rfl, .inl rfl⟩)
    show parseAtom (f2 + 2) (printE (.eabs a) ++ r) = some (.eabs a, r)
    rw [show printE (.eabs a) = 'a' :: 'b' :: 's' :: '(' :: (printE a ++ [')'])
        from rfl]
    simp only [List.cons_append, List.append_assoc, List.singleton_append, List.nil_append]
    rw [show (f2 + 2 : Nat) = (f2 + 1) + 1 from rfl, parseAtom_succ_abs,
      parseCall1_succ, hsum]
    rfl
  | ernd a ih =>
    intro f r hf hr
    have hf' : 5 * (esize a + 1) + 5 ≤ f := by
      have : esize (Expr.ernd a) = esize a + 1 := rfl
      omega
    obtain ⟨f2, rfl⟩ : ∃ k, f = k + 2 := ⟨f - 2, by omega⟩
    have hsum : parseSum f2 (printE a ++ (')' :: r)) = some (a, ')' :: r) :=
      parseSum_atom ih f2 (')' :: r) (by omega) (.inr ⟨')', r, rfl, .inl rfl⟩)
    show parseAtom (f2 + 2) (printE (.ernd a) ++ r) = some (.ernd a, r)
    rw [show printE (.ernd a)
        = 'r' :: 'o' :: 'u' :: 'n' :: 'd' :: '(' :: (printE a ++ [')']) from rfl]
    simp only [List.cons_append, List.append_assoc, List.singleton_append, List.nil_append]
    rw [show (f2 + 2 : Nat) = (f2 + 1) + 1 from rfl, parseAtom_succ_round,
      parseCall1_succ, hsum]
    rfl
  | emin a b iha ihb =>
    intro f r hf hr
    have hsa : 1 ≤ esize a := esize_pos a
    have hsb : 1 ≤ esize b := esize_pos b
    have hf' : 5 * (esize a + esize b + 1) + 5 ≤ f := by
      have : esize (Expr.emin a b) = esize a + esize b + 1 := rfl
      omega
    obtain ⟨f2, rfl⟩ : ∃ k, f = k + 2 := ⟨f - 2, by omega⟩
    have hsumA : parseSum f2 (printE a ++ (',' :: (printE b ++ (')' :: r))))
        = some (a, ',' :: (printE b ++ (')' :: r))) :=
      parseSum_atom iha f2 _ (by omega)
        (.inr ⟨',', printE b ++ (')' :: r), rfl, .inr rfl⟩)
    have hsumB : parseSum f2 (printE b ++ (')' :: r)) = some (b, ')' :: r) :=
      parseSum_atom ihb f2 (')' :: r) (by omega) (.inr ⟨')', r, rfl, .inl rfl⟩)
    show parseAtom (f2 + 2) (printE (.emin a b) ++ r) = some (.emin a b, r)
    rw [show printE (.emin a b)
        = 'm' :: 'i' :: 'n' :: '(' :: (printE a ++ ',' :: printE b ++ [')'])
        from rfl]
    simp only [List.cons_append, List.append_assoc, List.singleton_append, List.nil_append]
    rw [show (f2 + 2 : Nat) = (f2 + 1) + 1 from rfl, parseAtom_succ_min,
      parseCall2_succ, hsumA]
    simp only [skipWs_cons_of_ne _ _ (by decide : (',' : Char) ≠ ' ')]
    rw [hsumB]; rfl
  | emax a b iha ihb =>
    intro f r hf hr
    have hsa : 1 ≤ esize a := esize_pos a
    have hsb : 1 ≤ esize b := esize_pos b
    have hf' : 5 * (esize a + esize b + 1) + 5 ≤ f := by
      have : esize (Expr.emax a b) = esize a + esize b + 1 := rfl
      omega
    obtain ⟨f2, rfl⟩ : ∃ k, f = k + 2 := ⟨f - 2, by omega⟩
    have hsumA : parseSum f2 (printE a ++ (',' :: (printE b ++ (')' :: r))))
        = some (a, ',' :: (printE b ++ (')' :: r))) :=
      parseSum_atom iha f2 _ (by omega)
        (.inr ⟨',', printE b ++ (')' :: r), rfl, .inr rfl⟩)
    have hsumB : parseSum f2 (printE b ++ (')' :: r)) = some (b, ')' :: r) :=
      parseSum_atom ihb f2 (')' :: r) (by omega) (.inr ⟨')', r, rfl, .inl rfl⟩)
    show parseAtom (f2 + 2) (printE (.emax a b) ++ r) = some (.emax a b, r)
    rw [show printE (.emax a b)
        = 'm' :: 'a' :: 'x' :: '(' :: (printE a ++ ',' :: printE b ++ [')'])
        from rfl]
    simp only [List.cons_append, List.append_assoc, List.singleton_append, List.nil_append]
    rw [show (f2 + 2 : Nat) = (f2 + 1) + 1 from rfl, parseAtom_succ_max,
      parseCall2_succ, hsumA]
    simp only [skipWs_cons_of_ne _ _ (by decide : (',' : Char) ≠ ' ')]
    rw [hsumB]; rfl

/-- The canonical rendering is at least as long as the size measure. -/
theorem esize_le_length_printE : ∀ e : Expr, esize e ≤ (printE e).length := by
  intro e
  induction e with
  | num n =>
    have h := (natDigits_spec n).1
    have : 0 < (natDigits n).length := List.length_pos.2 h
    simpa [printE, esize] using this
  | neg a ih => simp [printE, esize]; omega
  | add a b iha ihb => simp [printE, esize]; omega
  | sub a b iha ihb => simp [printE, esize]; omega
  | mul a b iha ihb => simp [printE, esize]; omega
  | div a b iha ihb => simp [printE, esize]; omega
  | eabs a ih => simp [printE, esize]; omega
  | ernd a ih => simp [printE, esize]; omega
  | emin a b iha ihb => simp [printE, esize]; omega
  | emax a b iha ihb => simp [printE, esize]; omega

/-- Evaluating a canonically rendered expression string runs the evaluator
on exactly that expression. -/
theorem evalExprChars_printE (e : Expr) :
    evalExprChars (printE e) =
      match evalE e with
      | some v => .ok v
      | none => .error "division by zero" := by
  have hlen := esize_le_length_printE e
  have hparse : parseSum (5 * (printE e).length + 9) (printE e ++ []) = some (e, []) :=
    parseSum_atom (printE_parses e) _ [] (by omega) (.inl rfl)
  rw [List.append_nil] at hparse
  rw [evalExprChars, hparse]; rfl

/-- Every value the evaluator produces has a positive denominator. -/
theorem evalE_den_pos : ∀ (e : Expr) (v : Frac), evalE e = some v → 0 < v.den := by
  intro e
  induction e with
  | num n =>
    intro v h
    simp [evalE] at h
    subst h
    exact Nat.one_pos
  | neg a ih =>
    intro v h
    cases ha : evalE a with
    | none => simp [evalE, ha] at h
    | some x =>
      simp [evalE, ha] at h
      subst h
      simpa [negF] using ih x ha
  | add a b iha ihb =>
    intro v h
    cases ha : evalE a with
    | none => simp [evalE, ha] at h
    | some x =>
      cases hb : evalE b with
      | none => simp [evalE, ha, hb] at h
      | some y =>
        simp [evalE, ha, hb] at h
        subst h
        simpa [addF] using Nat.mul_pos (iha x ha) (ihb y hb)
  | sub a b iha ihb =>
    intro v h
    cases ha : evalE a with
    | none => simp [evalE, ha] at h
    | some x =>
      cases hb : evalE b with
      | none => simp [evalE, ha, hb] at h
      | some y =>
        simp [evalE, ha, hb] at h
        subst h
        simpa [subF] using Nat.mul_pos (iha x ha) (ihb y hb)
  | mul a b iha ihb =>
    intro v h
    cases ha : evalE a with
    | none => simp [evalE, ha] at h
    | some x =>
      cases hb : evalE b with
      | none => simp [evalE, ha, hb] at h
      | some y =>
        simp [evalE, ha, hb] at h
        subst h
        simpa [mulF] using Nat.mul_pos (iha x ha) (ihb y hb)
  | div a b iha ihb =>
    intro v h
    cases ha : evalE a with
    | none => simp [evalE, ha] at h
    | some x =>
      cases hb : evalE b with
      | none => simp [evalE, ha, hb] at h
      | some y =>
        by_cases hy : y.num = 0
        · simp [evalE, ha, hb, hy] at h
        · simp [evalE, ha, hb, hy] at h
          subst h
          have hx := iha x ha
          unfold divF
          split
          · have hpos : 0 < y.num.toNat := by omega
            simpa using Nat.mul_pos hx hpos
          · have hpos : 0 < (-y.num).toNat := by omega
            simpa using Nat.mul_pos hx hpos
  | eabs a ih =>
    intro v h
    cases ha : evalE a with
    | none => simp [evalE, ha] at h
    | some x =>
      simp [evalE, ha] at h
      subst h
      simpa [absF] using ih x ha
  | ernd a ih =>
    intro v h
    cases ha : evalE a with
    | none => simp [evalE, ha] at h
    | some x =>
      simp [evalE, ha] at h
      subst h
      exact Nat.one_pos
  | emin a b iha ihb =>
    intro v h
    cases ha : evalE a with
    | none => simp [evalE, ha] at h
    | some x =>
      cases hb : evalE b with
      | none => simp [evalE, ha, hb] at h
      | some y =>
        simp [evalE, ha, hb] at h
        subst h
        unfold minF
        split
        · exact iha x ha
        · exact ihb y hb
  | emax a b iha ihb =>
    intro v h
    cases ha : evalE a with
    | none => simp [evalE, ha] at h
    | some x =>
      cases hb : evalE b with
      | none => simp [evalE, ha, hb] at h
      | some y =>
        simp [evalE, ha, hb] at h
        subst h
        unfold maxF
        split
        · exact iha x ha
        · exact ihb y hb

/-- Cast of a positive denominator is nonzero. -/
theorem den_cast_ne_zero {x : Frac} (hx : 0 < x.den) : (x.den : ℚ) ≠ 0 :=
  Nat.cast_ne_zero.2 (by omega)

/-- Fraction addition means rational addition. -/
theorem fracToRat_addF {x y : Frac} (hx : 0 < x.den) (hy : 0 < y.den) :
    fracToRat (addF x y) = fracToRat x + fracToRat y := by
  have hx' := den_cast_ne_zero hx
  have hy' := den_cast_ne_zero hy
  simp only [fracToRat, addF]
  push_cast
  field_simp
  try ring

/-- Fraction subtraction means rational subtraction. -/
theorem fracToRat_subF {x y : Frac} (hx : 0 < x.den) (hy : 0 < y.den) :
    fracToRat (subF x y) = fracToRat x - fracToRat y := by
  have hx' := den_cast_ne_zero hx
  have hy' := den_cast_ne_zero hy
  simp only [fracToRat, subF]
  push_cast
  field_simp
  try ring

/-- Fraction multiplication means rational multiplication. -/
theorem fracToRat_mulF {x y : Frac} (hx : 0 < x.den) (hy : 0 < y.den) :
    fracToRat (mulF x y) = fracToRat x * fracToRat y := by
  have hx' := den_cast_ne_zero hx
  have hy' := den_cast_ne_zero hy
  simp only [fracToRat, mulF]
  push_cast
  field_simp

/-- Fraction negation means rational negation. -/
theorem fracToRat_negF (x : Frac) : fracToRat (negF x) = -fracToRat x := by
  simp [fracToRat, negF, neg_div]

/-- Fraction absolute value means rational absolute value. -/
theorem fracToRat_absF (x : Frac) : fracToRat (absF x) = |fracToRat x| := by
  simp only [fracToRat, absF, abs_div]
  rw [abs_of_nonneg (by positivity : (0 : ℚ) ≤ (x.den : ℚ))]
  push_cast
  rfl

/-- A fraction is zero exactly when its numerator is. -/
theorem fracToRat_eq_zero_iff {y : Frac} (hy : 0 < y.den) :
    fracToRat y = 0 ↔ y.num = 0 := by
  have hy' := den_cast_ne_zero hy
  simp [fracToRat, div_eq_zero_iff, hy']

/-- Fraction division means rational division (nonzero divisor). -/
theorem fracToRat_divF {x y : Frac} (hx : 0 < x.den) (hy : 0 < y.den)
    (hy0 : y.num ≠ 0) : fracToRat (divF x y) = fracToRat x / fracToRat y := by
  have hx' := den_cast_ne_zero hx
  have hy' := den_cast_ne_zero hy
  have hyQ : (y.num : ℚ) ≠ 0 := Int.cast_ne_zero.2 hy0
  by_cases hsgn : 0 ≤ y.num
  · have htn : ((y.num.toNat : Nat) : ℚ) = (y.num : ℚ) := by
      exact_mod_cast congrArg (fun z : Int => (z : ℚ)) (Int.toNat_of_nonneg hsgn)
    simp only [divF, if_pos hsgn, fracToRat]
    push_cast
    rw [htn]
    field_simp
    try ring
  · have hneg : (0 : Int) ≤ -y.num := by omega
    have htn : (((-y.num).toNat : Nat) : ℚ) = -(y.num : ℚ) := by
      have := congrArg (fun z : Int => (z : ℚ)) (Int.toNat_of_nonneg hneg)
      push_cast at this
      exact_mod_cast this
    simp only [divF, if_neg hsgn, fracToRat]
    push_cast
    rw [htn]
    field_simp
    try ring

/-- Fraction comparison means rational comparison. -/
theorem leF_iff {x y : Frac} (hx : 0 < x.den) (hy : 0 < y.den) :
    leF x y = true ↔ fracToRat x ≤ fracToRat y := by
  have hxp : (0 : ℚ) < (x.den : ℚ) := by exact_mod_cast hx
  have hyp : (0 : ℚ) < (y.den : ℚ) := by exact_mod_cast hy
  simp only [leF, decide_eq_true_eq, fracToRat]
  rw [div_le_div_iff₀ hxp hyp]
  exact_mod_cast Iff.rfl

/-- Fraction minimum means rational minimum. -/
theorem fracToRat_minF {x y : Frac} (hx : 0 < x.den) (hy : 0 < y.den) :
    fracToRat (minF x y) = min (fracToRat x) (fracToRat y) := by
  by_cases hle : leF x y = true
  · rw [minF, if_pos hle, min_eq_left ((leF_iff hx hy).1 hle)]
  · have : ¬ fracToRat x ≤ fracToRat y := fun hc => hle ((leF_iff hx hy).2 hc)
    rw [minF, if_neg hle, min_eq_right (le_of_not_le this)]

/-- Fraction maximum means rational maximum. -/
theorem fracToRat_maxF {x y : Frac} (hx : 0 < x.den) (hy : 0 < y.den) :
    fracToRat (maxF x y) = max (fracToRat x) (fracToRat y) := by
  by_cases hle : leF y x = true
  · rw [maxF, if_pos hle, max_eq_left ((leF_iff hy hx).1 hle)]
  · have : ¬ fracToRat y ≤ fracToRat x := fun hc => hle ((leF_iff hy hx).2 hc)
    rw [maxF, if_neg hle, max_eq_right (le_of_not_le this)]

/-- An integer as a fraction means the cast rational. -/
theorem fracToRat_intF (i : Int) : fracToRat (intF i) = (i : ℚ) := by
  simp [fracToRat, intF]

/-- The floor of a fraction value is floor division of its parts. -/
theorem floor_fracToRat (x : Frac) (hx : 0 < x.den) :
    ⌊fracToRat x⌋ = x.num.fdiv x.den := by
  have hdQ : (0 : ℚ) < (x.den : ℚ) := by exact_mod_cast hx
  have hdZ : (0 : Int) < (x.den : Int) := by exact_mod_cast hx
  have hkey : (x.den : Int) * (x.num.fdiv x.den) + x.num.fmod x.den = x.num :=
    Int.fdiv_add_fmod x.num x.den
  have hm0 : 0 ≤ x.num.fmod (x.den : Int) := Int.fmod_nonneg' x.num hdZ
  have hmlt : x.num.fmod (x.den : Int) < (x.den : Int) :=
    Int.fmod_lt_of_pos x.num hdZ
  refine Int.floor_eq_iff.2 ⟨?_, ?_⟩
  · rw [fracToRat, le_div_iff₀ hdQ]
    exact_mod_cast by nlinarith [hkey, hm0]
  · rw [fracToRat, div_lt_iff₀ hdQ]
    exact_mod_cast by nlinarith [hkey, hmlt]

/-- Fraction rounding is rounding of the fraction value. -/
theorem roundF_eq_roundQ (x : Frac) (hx : 0 < x.den) :
    roundF x = roundQ (fracToRat x) := by
  have hdQ : (0 : ℚ) < (x.den : ℚ) := by exact_mod_cast hx
  have hsub : fracToRat x - ((x.num.fdiv x.den : Int) : ℚ)
      = ((x.num - x.num.fdiv x.den * x.den : Int) : ℚ) / (x.den : ℚ) := by
    rw [fracToRat]
    push_cast
    field_simp
    ring
  have c1 : (fracToRat x - ((x.num.fdiv x.den : Int) : ℚ) < 1 / 2)
      ↔ 2 * (x.num - x.num.fdiv x.den * x.den) < (x.den : Int) := by
    rw [hsub, div_lt_iff₀ hdQ,
      show (1 : ℚ) / 2 * (x.den : ℚ) = (x.den : ℚ) / 2 from by ring,
      lt_div_iff₀ (by norm_num : (0 : ℚ) < 2), mul_comm]
    exact_mod_cast Iff.rfl
  have c2 : ((1 : ℚ) / 2 < fracToRat x - ((x.num.fdiv x.den : Int) : ℚ))
      ↔ (x.den : Int) < 2 * (x.num - x.num.fdiv x.den * x.den) := by
    rw [hsub, div_lt_div_iff₀ (by norm_num : (0 : ℚ) < 2) hdQ, one_mul, mul_comm]
    exact_mod_cast Iff.rfl
  have hparity : (x.num.fdiv x.den % 2 = 0) ↔ (2 ∣ x.num.fdiv x.den) :=
    (Int.dvd_iff_emod_eq_zero).symm
  simp only [roundF, roundQ, floorF, floor_fracToRat x hx]
  by_cases h1 : 2 * (x.num - x.num.fdiv x.den * x.den) < (x.den : Int)
  · rw [if_pos h1, if_pos (c1.2 h1)]
  · rw [if_neg h1, if_neg (fun hq1 => h1 (c1.1 hq1))]
    by_cases h2 : (x.den : Int) < 2 * (x.num - x.num.fdiv x.den * x.den)
    · rw [if_pos h2, if_pos (c2.2 h2)]
    · rw [if_neg h2, if_neg (fun hq2 => h2 (c2.1 hq2))]
      by_cases h3 : x.num.fdiv x.den % 2 = 0
      · rw [if_pos h3, if_pos (hparity.1 h3)]
      · rw [if_neg h3, if_neg (fun hd => h3 (hparity.2 hd))]

/-- The executable evaluator computes exactly the specification semantics:
mapping results into the rationals gives `denote`. -/
theorem evalE_toRat : ∀ e : Expr, (evalE e).map fracToRat = denote e := by
  intro e
  induction e with
  | num n =>
    simp [evalE, denote, fracToRat]
  | neg a ih =>
    cases ha : evalE a with
    | none => simp [evalE, denote, ha, ← ih]
    | some x =>
      have hxq : denote a = some (fracToRat x) := by rw [← ih, ha]; rfl
      simp [evalE, denote, ha, hxq, fracToRat_negF]
  | add a b iha ihb =>
    cases ha : evalE a with
    | none => simp [evalE, denote, ha, ← iha]
    | some x =>
      have hxq : denote a = some (fracToRat x) := by rw [← iha, ha]; rfl
      cases hb : evalE b with
      | none => simp [evalE, denote, ha, hxq, ← ihb, hb]
      | some y =>
        have hyq : denote b = some (fracToRat y) := by rw [← ihb, hb]; rfl
        simp [evalE, denote, ha, hb, hxq, hyq,
          fracToRat_addF (evalE_den_pos a x ha) (evalE_den_pos b y hb)]
  | sub a b iha ihb =>
    cases ha : evalE a with
    | none => simp [evalE, denote, ha, ← iha]
    | some x =>
      have hxq : denote a = some (fracToRat x) := by rw [← iha, ha]; rfl
      cases hb : evalE b with
      | none => simp [evalE, denote, ha, hxq, ← ihb, hb]
      | some y =>
        have hyq : denote b = some (fracToRat y) := by rw [← ihb, hb]; rfl
        simp [evalE, denote, ha, hb, hxq, hyq,
          fracToRat_subF (evalE_den_pos a x ha) (evalE_den_pos b y hb)]
  | mul a b iha ihb =>
    cases ha : evalE a with
    | none => simp [evalE, denote, ha, ← iha]
    | some x =>
      have hxq : denote a = some (fracToRat x) := by rw [← iha, ha]; rfl
      cases hb : evalE b with
      | none => simp [evalE, denote, ha, hxq, ← ihb, hb]
      | some y =>
        have hyq : denote b = some (fracToRat y) := by rw [← ihb, hb]; rfl
        simp [evalE, denote, ha, hb, hxq, hyq,
          fracToRat_mulF (evalE_den_pos a x ha) (evalE_den_pos b y hb)]
  | div a b iha ihb =>
    cases ha : evalE a with
    | none => simp [evalE, denote, ha, ← iha]
    | some x =>
      have hxq : denote a = some (fracToRat x) := by rw [← iha, ha]; rfl
      cases hb : evalE b with
      | none => simp [evalE, denote, ha, hxq, ← ihb, hb]
      | some y =>
        have hyq : denote b = some (fracToRat y) := by rw [← ihb, hb]; rfl
        have hdy := evalE_den_pos b y hb
        by_cases hy0 : y.num = 0
        · have : fracToRat y = 0 := (fracToRat_eq_zero_iff hdy).2 hy0
          simp [evalE, denote, ha, hb, hxq, hyq, hy0, this]
        · have hz : ¬ fracToRat y = 0 := fun hc => hy0 ((fracToRat_eq_zero_iff hdy).1 hc)
          simp [evalE, denote, ha, hb, hxq, hyq, hy0, hz,
            fracToRat_divF (evalE_den_pos a x ha) hdy hy0]
  | eabs a ih =>
    cases ha : evalE a with
    | none => simp [evalE, denote, ha, ← ih]
    | some x =>
      have hxq : denote a = some (fracToRat x) := by rw [← ih, ha]; rfl
      simp [evalE, denote, ha, hxq, fracToRat_absF]
  | ernd a ih =>
    cases ha : evalE a with
    | none => simp [evalE, denote, ha, ← ih]
    | some x =>
      have hxq : denote a = some (fracToRat x) := by rw [← ih, ha]; rfl
      simp [evalE, denote, ha, hxq, fracToRat_intF,
        roundF_eq_roundQ x (evalE_den_pos a x ha)]
  | emin a b iha ihb =>
    cases ha : evalE a with
    | none => simp [evalE, denote, ha, ← iha]
    | some x =>
      have hxq : denote a = some (fracToRat x) := by rw [← iha, ha]; rfl
      cases hb : evalE b with
      | none => simp [evalE, denote, ha, hxq, ← ihb, hb]
      | some y =>
        have hyq : denote b = some (fracToRat y) := by rw [← ihb, hb]; rfl
        simp [evalE, denote, ha, hb, hxq, hyq,
          fracToRat_minF (evalE_den_pos a x ha) (evalE_den_pos b y hb)]
  | emax a b iha ihb =>
    cases ha : evalE a with
    | none => simp [evalE, denote, ha, ← iha]
    | some x =>
      have hxq : denote a = some (fracToRat x) := by rw [← iha, ha]; rfl
      cases hb : evalE b with
      | none => simp [evalE, denote, ha, hxq, ← ihb, hb]
      | some y =>
        have hyq : denote b = some (fracToRat y) := by rw [← ihb, hb]; rfl
        simp [evalE, denote, ha, hb, hxq, hyq,
          fracToRat_maxF (evalE_den_pos a x ha) (evalE_den_pos b y hb)]

/-- Claim C6: every expression of the modelled grammar, rendered as an input
string, makes the calculator print the exact value of that expression (or
the division-by-zero error), where the computed value provably equals the
rational semantics; and every input the grammar rejects yields the syntax
error string. -/
theorem calculate_grammar_correct :
    (∀ e : Expr,
        calculate (String.mk (printE e)) =
          (match evalE e with
            | some v => "Result: " ++ renderFrac v
            | none => "Error evaluating expression: division by zero")
        ∧ (evalE e).map fracToRat = denote e)
    ∧ (∀ s : String,
        evalExprChars s.data = .error "invalid syntax" →
          calculate s = "Error evaluating expression: invalid syntax") := by
  constructor
  · intro e
    refine ⟨?_, evalE_toRat e⟩
    have h := evalExprChars_printE e
    show calculateWith pyEvalModel (String.mk (printE e)) = _
    rw [calculateWith, pyEvalModel,
      show (String.mk (printE e)).data = printE e from rfl, h]
    cases evalE e <;> rfl
  · intro s h
    show calculateWith pyEvalModel s = _
    rw [calculateWith, pyEvalModel, h]
    rfl

/-- Claim C6, witness: a concrete correct evaluation and a concrete
rejected input. -/
theorem calculate_grammar_correct_witness :
    calculate "(1+2)" = "Result: 3"
    ∧ calculate "x + 1" = "Error evaluating expression: invalid syntax" := by
  constructor
  · have h := (calculate_grammar_correct.1 (Expr.add (.num 1) (.num 2))).1
    rw [show String.mk (printE (Expr.add (.num 1) (.num 2))) = "(1+2)" from rfl] at h
    rw [h]
    rfl
  · exact calculate_grammar_correct.2 "x + 1" (by rfl)


end Server
